import Mathlib

/-!
Verification of the storage-subnet validator core against its specification.

The Python sources embedded here:
* `storage/utils/merkle.py` — `MerkleTree` (`_calculate_next_level`, `make_tree`,
  `get_proof`, `update_leaf`, `serialize`, `deserialize`) and `validate_merkle_proof`;
* `neurons/validator.py` — the Store / Challenge / Retrieve round logic
  (`store_encrypted_data`, `handle_challenge`, `challenge`, `handle_retrieve`,
  `retrieve`, `forward`, `run`).

Conventions of the embedding:
* a Python `bytes` / `bytearray` is a `List Nat` whose members are `< 256`;
* a hex string is a `List Nat` of hex-digit values; a character that is not a
  hex digit is represented by any value `≥ 16`;
* fallible Python code (raising exceptions) returns `Option`;
* `float` rewards are modelled exactly with `Rat` (the claims only distinguish
  the formulas `+1·tf`, `−0.1·tf`, `−0.1`, `0`, which no float rounding merges);
* SHA3-256 (`hashlib.sha3_256`) is implemented from FIPS 202 so that concrete
  program runs can be evaluated inside Lean.
-/

/-! ## Bytes and hex strings -/

abbrev Bytes := List Nat

abbrev HexStr := List Nat

/-- Hex rendering of one byte, as the two hex-digit values (`"%02x"`). -/
def hexEncodeByte (b : Nat) : HexStr := [b / 16, b % 16]

/-- Python `bytearray.hex()` / `_to_hex`: each byte becomes two hex digits. -/
def hexEncode : Bytes → HexStr
  | [] => []
  | b :: bs => b / 16 :: b % 16 :: hexEncode bs

/-- Python `bytearray.fromhex`: pairs of hex digits; raises (`none`) on an odd
number of characters or on a character that is not a hex digit (value `≥ 16`). -/
def hexDecode? : HexStr → Option Bytes
  | [] => some []
  | [_] => none
  | hi :: lo :: rest =>
    if hi < 16 && lo < 16 then (hexDecode? rest).map (fun bs => (16 * hi + lo) :: bs)
    else none

/-! ## SHA3-256 (FIPS 202), on byte lists -/

/-- Rotate a 64-bit lane left by `n` bits. -/
def rotl64 (x n : Nat) : Nat := ((x <<< n) ||| (x >>> (64 - n))) % 2 ^ 64

/-- One step of the degree-8 LFSR of FIPS 202 section 3.2.5 (polynomial
`x^8 + x^6 + x^5 + x^4 + 1`, byte form). -/
def keccakLfsr (r : Nat) : Nat := ((r <<< 1) ^^^ ((r >>> 7) * 0x71)) % 256

/-- The round-constant bit `rc(t)` of FIPS 202: the low bit of the LFSR
state after `t mod 255` steps from `0x01`. -/
def keccakRcBit (t : Nat) : Nat := (keccakLfsr^[t % 255] 1) &&& 1

/-- Keccak round constants for the iota step, from the `rc` bit sequence:
bit `2^j - 1` of `RC[ir]` is `rc(j + 7*ir)`. -/
def keccakRC : List Nat :=
  (List.range 24).map (fun ir =>
    (List.range 7).foldl (fun acc j => acc ||| (keccakRcBit (j + 7 * ir) <<< (2 ^ j - 1))) 0)

/-- Rho rotation offsets, indexed by lane position `x + 5*y`: offset
`(t+1)(t+2)/2 mod 64` along the pi walk `(x, y) to (y, (2x+3y) mod 5)`
starting from `(1, 0)`, with lane `(0, 0)` unrotated. -/
def keccakRho : List Nat :=
  let walk := (List.range 24).foldl
    (fun (acc : List (Nat × Nat) × (Nat × Nat)) t =>
      ((acc.2.1 + 5 * acc.2.2, (t + 1) * (t + 2) / 2 % 64) :: acc.1,
        (acc.2.2, (2 * acc.2.1 + 3 * acc.2.2) % 5)))
    ([], (1, 0))
  (List.range 25).map (fun i => (walk.1.lookup i).getD 0)

/-- Theta step of Keccak-f[1600]; the state is 25 lanes indexed by `x + 5*y`. -/
def keccakTheta (A : List Nat) : List Nat :=
  let C := (List.range 5).map (fun x =>
    A.getD x 0 ^^^ A.getD (x + 5) 0 ^^^ A.getD (x + 10) 0 ^^^
      A.getD (x + 15) 0 ^^^ A.getD (x + 20) 0)
  let D := (List.range 5).map (fun x =>
    C.getD ((x + 4) % 5) 0 ^^^ rotl64 (C.getD ((x + 1) % 5) 0) 1)
  (List.range 25).map (fun i => A.getD i 0 ^^^ D.getD (i % 5) 0)

/-- Rho and pi steps: lane `(x, y)` is rotated and moved to `(y, (2x+3y) mod 5)`. -/
def keccakRhoPi (A : List Nat) : List Nat :=
  let placed := (List.range 25).map (fun i =>
    let x := i % 5
    let y := i / 5
    (y + 5 * ((2 * x + 3 * y) % 5), rotl64 (A.getD i 0) (keccakRho.getD i 0)))
  (List.range 25).map (fun j => ((placed.lookup j).getD 0))

/-- Chi step: within each row, `A[x,y]` is xored with `(not A[x+1,y]) and A[x+2,y]`. -/
def keccakChi (B : List Nat) : List Nat :=
  (List.range 25).map (fun i =>
    let x := i % 5
    let y := i / 5
    B.getD i 0 ^^^
      ((B.getD ((x + 1) % 5 + 5 * y) 0 ^^^ (2 ^ 64 - 1)) &&& B.getD ((x + 2) % 5 + 5 * y) 0))

/-- One Keccak round: theta, rho, pi, chi, then iota with round constant `rc`. -/
def keccakRound (A : List Nat) (rc : Nat) : List Nat :=
  let B := keccakChi (keccakRhoPi (keccakTheta A))
  (B.getD 0 0 ^^^ rc) :: B.drop 1

/-- The Keccak-f[1600] permutation: 24 rounds. -/
def keccakF (A : List Nat) : List Nat := keccakRC.foldl keccakRound A

/-- Interpret up to eight bytes as a little-endian 64-bit lane. -/
def bytesToLane (bs : Bytes) : Nat := bs.foldr (fun b acc => acc * 256 + b) 0

/-- SHA3 `pad10*1` padding with domain separator `0x06`, to the 136-byte rate. -/
def sha3Pad (msg : Bytes) : Bytes :=
  let padlen := 136 - msg.length % 136
  if padlen = 1 then msg ++ [0x86]
  else msg ++ [0x06] ++ List.replicate (padlen - 2) 0 ++ [0x80]

/-- Absorb one 136-byte block into the state and permute. -/
def absorbBlock (st : List Nat) (block : Bytes) : List Nat :=
  let lanes := (List.range 17).map (fun j => bytesToLane ((block.drop (8 * j)).take 8))
  keccakF ((List.range 25).map (fun i =>
    st.getD i 0 ^^^ (if i < 17 then lanes.getD i 0 else 0)))

/-- Absorb `n` consecutive 136-byte blocks. -/
def absorbBlocks : Nat → List Nat → Bytes → List Nat
  | 0, st, _ => st
  | n + 1, st, bs => absorbBlocks n (absorbBlock st (bs.take 136)) (bs.drop 136)

/-- SHA3-256 of a byte string: absorb the padded message, squeeze 32 bytes
from the first four lanes (little-endian). Models `hashlib.sha3_256(.).digest()`. -/
def sha3_256 (msg : Bytes) : Bytes :=
  let padded := sha3Pad msg
  let st := absorbBlocks (padded.length / 136) (List.replicate 25 0) padded
  (List.range 32).map (fun i => (st.getD (i / 8) 0 >>> (8 * (i % 8))) % 256)

/-! ## MerkleTree (`storage/utils/merkle.py`) -/

/-- One merkle-proof entry: the Python dict `{"left": hex}` or `{"right": hex}`.
Both keys are kept optional so that arbitrary (also malformed) proof entries
can be represented, as `validate_merkle_proof` receives them. -/
structure ProofEntry where
  left : Option HexStr
  right : Option HexStr
deriving DecidableEq, Repr

/-- The `MerkleTree` object: `hash_function` (always `sha3_256` for trees made
by the constructor), `leaves`, `levels` (root level first, `None` before any
`make_tree`), and the `is_ready` flag. -/
structure MerkleTree where
  hash_function : Bytes → Bytes
  leaves : List Bytes
  levels : Option (List (List Bytes))
  is_ready : Bool

/-- The `MerkleTree(hash_type)` constructor: only `"sha3_256"` is supported,
any other hash type raises. The fresh tree is `reset_tree`'s state. -/
def MerkleTree.init (hash_type : String) : Option MerkleTree :=
  if hash_type = "sha3_256" then
    some { hash_function := sha3_256, leaves := [], levels := none, is_ready := false }
  else none

/-- `MerkleTree._calculate_next_level`: hash adjacent pairs from the front;
an odd trailing node is carried up unchanged (the solo leaf). -/
def calculateNextLevel (H : Bytes → Bytes) : List Bytes → List Bytes
  | [] => []
  | [solo] => [solo]
  | l :: r :: rest => H (l ++ r) :: calculateNextLevel H rest

/-- The `while len(self.levels[0]) > 1` loop of `make_tree`, returning the
levels list with the root level first. The fuel argument bounds the number of
iterations; `make_tree` passes the leaf count, which always suffices because
each iteration at least halves the level length. -/
def makeLevelsAux (H : Bytes → Bytes) : Nat → List Bytes → List (List Bytes)
  | 0, lvl => [lvl]
  | fuel + 1, lvl =>
    if lvl.length ≤ 1 then [lvl]
    else makeLevelsAux H fuel (calculateNextLevel H lvl) ++ [lvl]

/-- `MerkleTree.make_tree`: builds `levels` bottom-up when there is at least
one leaf; `is_ready` is set in every case (also with zero leaves, where
`levels` is left untouched). -/
def MerkleTree.make_tree (t : MerkleTree) : MerkleTree :=
  if 0 < t.leaves.length then
    { t with
      levels := some (makeLevelsAux t.hash_function t.leaves.length t.leaves),
      is_ready := true }
  else { t with is_ready := true }

/-- `MerkleTree.get_leaf`: hex rendering of the indexed leaf. -/
def MerkleTree.get_leaf (t : MerkleTree) (index : Nat) : HexStr :=
  hexEncode (t.leaves.getD index [])

/-- `MerkleTree.get_merkle_root`: hex of `levels[0][0]` when the tree is
ready and has levels, `None` otherwise. -/
def MerkleTree.get_merkle_root (t : MerkleTree) : Option HexStr :=
  if t.is_ready then
    match t.levels with
    | some lvls => some (hexEncode ((lvls.getD 0 []).getD 0 []))
    | none => none
  else none

/-- The proof entry (or skip) contributed by one level in `get_proof`: the odd
end node is skipped; otherwise the sibling's hex value is recorded under
`"left"` when the current node is a right child and under `"right"` otherwise. -/
def proofEntryAt (lvl : List Bytes) (index : Nat) : List ProofEntry :=
  if index = lvl.length - 1 ∧ lvl.length % 2 = 1 then []
  else if index % 2 = 1 then [⟨some (hexEncode (lvl.getD (index - 1) [])), none⟩]
  else [⟨none, some (hexEncode (lvl.getD (index + 1) []))⟩]

/-- The `for x in range(len(self.levels) - 1, 0, -1)` loop of `get_proof`,
given the levels in bottom-up order (`levels` reversed): every level except
the root level contributes, and the index halves between levels. -/
def proofLoop : List (List Bytes) → Nat → List ProofEntry
  | [], _ => []
  | [_], _ => []
  | lvl :: next :: rest, index =>
    proofEntryAt lvl index ++ proofLoop (next :: rest) (index / 2)

/-- `MerkleTree.get_proof`: `None` when there are no levels, the tree is not
ready, or the index is out of range (in Python, `index > len(leaves) - 1` —
with zero leaves every natural index is rejected, matching `index > -1`). -/
def MerkleTree.get_proof (t : MerkleTree) (index : Nat) : Option (List ProofEntry) :=
  match t.levels with
  | none => none
  | some lvls =>
    if ¬t.is_ready ∨ t.leaves.length ≤ index then none
    else some (proofLoop lvls.reverse index)

/-- The upward-recomputation loop of `update_leaf`, on the levels above the
current one: the parent of `index` is recomputed from its two children, where
a missing right child (the Python `except IndexError`) contributes the empty
byte string, and the walk continues from the parent index. -/
def updChainAux (H : Bytes → Bytes) : List (List Bytes) → List Bytes → Nat → List (List Bytes)
  | [], lvl, _ => [lvl]
  | next :: rest, lvl, index =>
    let p := index / 2
    let leftChild := lvl.getD (2 * p) []
    let rightChild := if 2 * p + 1 < lvl.length then lvl.getD (2 * p + 1) [] else []
    lvl :: updChainAux H rest (next.set p (H (leftChild ++ rightChild))) p

/-- The `for x in range(len(self.levels) - 1, 0, -1)` loop of `update_leaf`,
given the levels in bottom-up order (`levels` reversed, leaf level first). -/
def updChain (H : Bytes → Bytes) : List (List Bytes) → Nat → List (List Bytes)
  | [], _ => []
  | lvl :: rest, index => updChainAux H rest lvl index

/-- `MerkleTree.update_leaf`: a no-op (`return None`) when the tree is not
ready; otherwise the hex value is decoded (raising on bad hex), written into
the leaf level, and propagated upwards. For trees produced by `make_tree`,
`levels[-1]` aliases `self.leaves`, so the leaf list is updated as well. -/
def MerkleTree.update_leaf (t : MerkleTree) (index : Nat) (new_value : HexStr) :
    Option MerkleTree :=
  if ¬t.is_ready then some t
  else
    match hexDecode? new_value with
    | none => none
    | some nv =>
      match t.levels with
      | none => none
      | some lvls =>
        match lvls.reverse with
        | [] => none
        | leafLvl :: rest =>
          let leafLvl' := leafLvl.set index nv
          some { t with
                 leaves := leafLvl',
                 levels := some ((updChain t.hash_function (leafLvl' :: rest) index).reverse) }

/-- The serialized form of a tree: hex leaves, hex levels, and the ready flag
(the JSON object `{"leaves": ..., "levels": ..., "is_ready": ...}`; the JSON
text round-trip itself is the identity on this record). -/
structure SerializedTree where
  leaves : List HexStr
  levels : Option (List (List HexStr))
  is_ready : Bool
deriving DecidableEq, Repr

/-- `MerkleTree.serialize`: every byte string rendered as hex. -/
def MerkleTree.serialize (t : MerkleTree) : SerializedTree :=
  { leaves := t.leaves.map hexEncode,
    levels := t.levels.map (fun lvls => lvls.map (fun lvl => lvl.map hexEncode)),
    is_ready := t.is_ready }

/-- `MerkleTree.deserialize` (with the default `hash_type="sha3_256"`): hex
strings are decoded back to byte strings (raising on bad hex), `levels` is set
only when present, and `is_ready` is copied. -/
def MerkleTree.deserialize (s : SerializedTree) : Option MerkleTree := do
  let leaves ← s.leaves.mapM hexDecode?
  let levels ← match s.levels with
    | none => pure none
    | some ls => some <$> ls.mapM (fun lvl => lvl.mapM hexDecode?)
  pure { hash_function := sha3_256, leaves := leaves, levels := levels,
         is_ready := s.is_ready }

/-! ## `validate_merkle_proof` (`storage/utils/merkle.py`, lines 167-184) -/

/-- The `except:` branch of the proof loop body: the sibling is read from the
`"right"` key; a missing key or bad hex propagates the exception (`none`). -/
def proofStepRight (H : Bytes → Bytes) (cur : Bytes) (p : ProofEntry) : Option Bytes :=
  match p.right with
  | some rhex => (hexDecode? rhex).map (fun sib => H (cur ++ sib))
  | none => none

/-- One iteration of the proof loop: `try` reads and decodes `p["left"]` and
hashes `sibling ‖ current`; any failure there (missing key or bad hex) falls
through to the `"right"` branch. -/
def proofStep (H : Bytes → Bytes) (cur : Bytes) (p : ProofEntry) : Option Bytes :=
  match p.left with
  | some lhex =>
    match hexDecode? lhex with
    | some sib => some (H (sib ++ cur))
    | none => proofStepRight H cur p
  | none => proofStepRight H cur p

/-- `validate_merkle_proof(proof, target_hash, merkle_root)`: decode the root
and target hex (raising on bad hex), then either compare directly (empty
proof) or fold the proof entries and compare the final hash with the root. -/
def validate_merkle_proof (H : Bytes → Bytes) (proof : List ProofEntry)
    (target_hash merkle_root : HexStr) : Option Bool :=
  match hexDecode? merkle_root, hexDecode? target_hash with
  | some root, some target =>
    if proof = [] then some (target == root)
    else (List.foldlM (proofStep H) target proof).map (fun ph => ph == root)
  | _, _ => none

/-! ## Validator round logic (`neurons/validator.py`) -/

/-- The metadata record a validator stores per `(hotkey, data_hash)`:
`prev_seed`, `size`, and the opaque `encryption_payload`. -/
structure StoredMeta where
  prev_seed : HexStr
  size : Nat
  encryption_payload : List Nat
deriving DecidableEq, Repr

/-- Python `sys.getsizeof` on a `bytes` object (CPython 3.x, 64-bit): the
object header costs 33 bytes on top of the payload, so the result is
`33 + len(data)` — in particular it is never `len(data)`. -/
def sys_getsizeof_bytes (data : Bytes) : Nat := 33 + data.length

/-- The `response_storage` record written by `store_encrypted_data` on a
verified store (validator.py lines 356-362): `prev_seed` is the request seed
and `size` is `sys.getsizeof(encrypted_data)` ("in bytes, not len(data)"). -/
def store_success_metadata (seed : HexStr) (encrypted_data : Bytes)
    (payload : List Nat) : StoredMeta :=
  { prev_seed := seed,
    size := sys_getsizeof_bytes encrypted_data,
    encryption_payload := payload }

/-- The per-response reward of a Store round (validator.py line 399):
`1.0 * tier_factor if success else 0.0`. -/
def store_response_reward (success : Bool) (tier_factor : Rat) : Rat :=
  if success then 1 * tier_factor else 0

/-- The per-response reward of a Challenge round (validator.py lines 623-636):
a miner with no data is skipped (`verified == None`, its reward row stays 0);
otherwise `1.0 * tier_factor if verified else -0.1 * tier_factor`. -/
def challenge_response_reward (verified : Option Bool) (tier_factor : Rat) : Rat :=
  match verified with
  | none => 0
  | some true => 1 * tier_factor
  | some false => -(1 / 10) * tier_factor

/-- The verification-relevant content of one Retrieve response: whether the
base64 payload decodes, whether its hash matches the stored `data_hash`, and
whether `verify_retrieve_with_seed` accepts it. -/
structure RetrieveResponse where
  decode_ok : Bool
  hash_ok : Bool
  verify_ok : Bool
deriving DecidableEq, Repr

/-- One miner's Retrieve interaction: `handle_retrieve` (validator.py lines
668-714) returns `(None, "")` when the miner holds no data (`resp = none`),
leaving the metadata untouched; otherwise it overwrites `prev_seed` with the
fresh seed unconditionally — before and regardless of any verification.
The caller `retrieve` (lines 779-836) then computes the reward: `-0.1` (flat)
when decoding, the hash check, or `verify_retrieve_with_seed` fails, and
`1.0 * tier_factor` on success; it never reverts the metadata write. -/
def retrieve_round_entry (meta : StoredMeta) (seed : HexStr)
    (resp : Option RetrieveResponse) (tier_factor : Rat) : StoredMeta × Rat :=
  match resp with
  | none => (meta, 0)
  | some r =>
    let meta' := { meta with prev_seed := seed }
    let reward : Rat :=
      if ¬r.decode_ok then -(1 / 10)
      else if ¬r.hash_ok then -(1 / 10)
      else if ¬r.verify_ok then -(1 / 10)
      else 1 * tier_factor
    (meta', reward)

/-- One miner's Challenge interaction: `handle_challenge` (validator.py lines
561-568) verifies the response and updates `prev_seed` only when
`verify_challenge_with_seed` accepted it. -/
def challenge_round_entry (meta : StoredMeta) (seed : HexStr)
    (verified : Bool) : StoredMeta :=
  if verified then { meta with prev_seed := seed } else meta

/-- The number of chunks used to draw `challenge_index` in `handle_challenge`
(validator.py lines 532-534): `size // chunk_size if size > chunk_size else
size` — floor division, and the raw size itself when the blob fits in one
chunk. -/
def handle_challenge_num_chunks (size chunk_size : Nat) : Nat :=
  if chunk_size < size then size / chunk_size else size

/-- The spec's formula for the same quantity: `ceil(size / chunk_size)`
(for comparison with `handle_challenge_num_chunks`). -/
def spec_num_chunks (size chunk_size : Nat) : Nat :=
  (size + chunk_size - 1) / chunk_size

/-- The `challenge_index` of the Challenge synapse (validator.py line 549):
`random.choice(range(num_chunks))`, with the random draw abstracted as `pick`
(any function satisfying `pick n < n` on nonempty ranges). -/
def handle_challenge_index (size chunk_size : Nat) (pick : Nat → Nat) : Nat :=
  pick (handle_challenge_num_chunks size chunk_size)

/-- The result of the Store dispatch loop: how many waves (dendrite
broadcasts) were executed and, for each retry selection, how many fresh
miners were requested from `get_available_query_miners`. -/
structure StoreLoopResult where
  waves : Nat
  fresh_calls : List Nat
deriving DecidableEq, Repr

/-- The `while len(failed_uids) and retries < 3` loop of `store_encrypted_data`
(validator.py lines 315-433). `failed_uids` starts as `[None]` (modelled as
`[none]`); inside the loop it is reset to `[]` on the first pass, one wave is
dispatched (`respond uids` gives the per-uid verification outcomes), failed
uids are appended, and — when any failed — `len(failed_uids)` fresh uids are
selected, `failed_uids` is reset to `[]`, and `retries` is incremented before
the loop condition is re-examined. The fuel bounds the iterations; `retries <
3` means 4 always suffices. -/
def storeLoopAux (respond : List Nat → List Bool) (fresh : Nat → List Nat) :
    Nat → List Nat → List (Option Nat) → Nat → Nat → List Nat → StoreLoopResult
  | 0, _, _, _, waves, calls => ⟨waves, calls⟩
  | fuel + 1, uids, failed_uids, retries, waves, calls =>
    if failed_uids.length = 0 ∨ 3 ≤ retries then ⟨waves, calls⟩
    else
      let failed0 : List (Option Nat) := if failed_uids = [none] then [] else failed_uids
      let outcomes := respond uids
      let failed1 := failed0 ++
        ((uids.zip outcomes).filterMap (fun ur => if ur.2 then none else some (some ur.1)))
      if failed1 = [] then ⟨waves + 1, calls⟩
      else
        storeLoopAux respond fresh fuel (fresh failed1.length) [] (retries + 1)
          (waves + 1) (calls ++ [failed1.length])

/-- The Store dispatch loop as entered by `store_encrypted_data`:
`failed_uids = [None]`, `retries = 0`. -/
def store_encrypted_data_loop (respond : List Nat → List Bool)
    (fresh : Nat → List Nat) (uids : List Nat) : StoreLoopResult :=
  storeLoopAux respond fresh 4 uids [none] 0 0 []

/-! ## Step loop and phase error handling (`forward` and `run`) -/

/-- Outcome of one phase of `forward`, after its own `try`/`except` block:
the error message is logged (`bt.logging.error`) and swallowed. -/
def try_phase (p : Except String Unit) : String :=
  match p with
  | .ok _ => "ok"
  | .error e => e

/-- `forward` (validator.py lines 1062-1143): each of the six phases (store,
challenge, retrieve, rebalance, tier recompute + stats, total storage) runs
inside its own `try`/`except`, so every phase is attempted in order and
`forward` itself never propagates an exception. -/
def forward_step (phases : List (Except String Unit)) : Except String (List String) :=
  .ok (phases.map try_phase)

/-- Modelled from the spec: `should_checkpoint` / `checkpoint` /
`should_set_weights` / `set_weights` / `save_state` (from
`storage.validator.state` and `storage.validator.weights`, not under `src/`)
follow the error table of §7 — `ChainUnavailable` is recovered internally
("Step retried at next interval; state preserved"), so the end-of-step
maintenance never raises into the step loop. -/
def step_maintenance : Except String Unit := .ok ()

/-- One iteration of the `while True` loop of `run` (validator.py lines
997-1056): the only raise reaching the loop is the registration check
(`hotkey not in metagraph.hotkeys`, lines 1017-1020); afterwards `forward`
and the maintenance run without propagating. -/
def run_step (registered : Bool) (phases : List (Except String Unit)) :
    Except String (List String) :=
  if ¬registered then
    .error "Validator is not registered - hotkey not in metagraph"
  else
    match forward_step phases, step_maintenance with
    | .ok trace, .ok _ => .ok trace
    | .error e, _ => .error e
    | .ok _, .error e => .error e

/-! ## Helper definitions for the proofs -/

/-- Wellformedness of a list of byte strings: every byte is below 256
(automatic for Python `bytearray`s, made explicit in this embedding). -/
abbrev WfBytes (l : List Bytes) : Prop := ∀ x ∈ l, ∀ b ∈ x, b < 256

/-- The levels of `make_tree` in bottom-up order (the reverse of
`makeLevelsAux`), used to walk proofs leaf-to-root. -/
def revMakeAux (H : Bytes → Bytes) : Nat → List Bytes → List (List Bytes)
  | 0, lvl => [lvl]
  | fuel + 1, lvl =>
    if lvl.length ≤ 1 then [lvl]
    else lvl :: revMakeAux H fuel (calculateNextLevel H lvl)

/-- The top level reached by iterating `_calculate_next_level`. -/
def reduceRoot (H : Bytes → Bytes) : Nat → List Bytes → List Bytes
  | 0, lvl => lvl
  | fuel + 1, lvl =>
    if lvl.length ≤ 1 then lvl
    else reduceRoot H fuel (calculateNextLevel H lvl)

/-- A trivial constant hash function, used only to instantiate
hash-function-generic theorems on concrete inputs cheaply. -/
def constHash : Bytes → Bytes := fun _ => [0]


/-! ## Claim theorems -/

theorem hexDecode_hexEncode (bs : Bytes) (h : ∀ b ∈ bs, b < 256) :
    hexDecode? (hexEncode bs) = some bs := by
  induction bs with
  | nil => rfl
  | cons b bs ih =>
    have hb : b < 256 := h b (by simp)
    have hhi : b / 16 < 16 := by omega
    have hlo : b % 16 < 16 := Nat.mod_lt _ (by norm_num)
    have hrec := ih (fun x hx => h x (by simp [hx]))
    simp [hexEncode, hexDecode?, hhi, hlo, hrec, Nat.div_add_mod]

theorem sha3_256_bytes_lt (msg : Bytes) : ∀ b ∈ sha3_256 msg, b < 256 := by
  intro b hb
  simp only [sha3_256, List.mem_map] at hb
  obtain ⟨i, _, hi⟩ := hb
  omega



/-- C1. The spec demands that `prev_seed` is updated if and only if the
response passes verification. The Retrieve path violates this: at the failing
input below — a stored record with `prev_seed = [0]`, a fresh seed `[1]`, and
a response whose decode and hash checks pass but whose
`verify_retrieve_with_seed` fails (reward `-0.1`) — `handle_retrieve` has
already overwritten `prev_seed` with the fresh seed, although verification
failed. -/
theorem c1_retrieve_prev_seed_updated_despite_failed_verification :
    (retrieve_round_entry ⟨[0], 64, []⟩ [1]
        (some ⟨true, true, false⟩) 1).1.prev_seed = [1] ∧
    (retrieve_round_entry ⟨[0], 64, []⟩ [1]
        (some ⟨true, true, false⟩) 1).2 = -(1 / 10) ∧
    ([1] : HexStr) ≠ [0] := by
  refine ⟨rfl, by norm_num [retrieve_round_entry], by simp⟩

/-- C2 counterexample. The claim says a failed verification always earns
`-0.1 * tier_factor`; in the Store round with `tier_factor = 1` the code
instead awards `0`, and in the Retrieve round with `tier_factor = 2` a failed
verification earns the flat `-0.1` rather than `-0.2`. -/
theorem c2_counterexample_store_failure_reward_zero :
    store_response_reward false 1 = 0 ∧ (0 : Rat) ≠ -(1 / 10) * 1 ∧
    (retrieve_round_entry ⟨[], 0, []⟩ [] (some ⟨true, true, false⟩) 2).2 = -(1 / 10) ∧
    (-(1 / 10) : Rat) ≠ -(1 / 10) * 2 := by
  refine ⟨rfl, by norm_num, by norm_num [retrieve_round_entry], by norm_num⟩

/-- C2 amended. The per-response raw rewards actually computed are:
Store — `+1·tier_factor` on success and `0` on failure; Challenge —
`+1·tier_factor` on success, `-0.1·tier_factor` on failure, `0` when the
miner has no data; Retrieve — `+1·tier_factor` on success, a flat `-0.1`
(no tier factor) on any failure (decode, hash mismatch, or bad opening), and
`0` when the miner has no data. -/
theorem c2_reward_values_amended (tf : Rat) (m : StoredMeta) (seed : HexStr)
    (d h v : Bool) :
    store_response_reward true tf = 1 * tf ∧
    store_response_reward false tf = 0 ∧
    challenge_response_reward (some true) tf = 1 * tf ∧
    challenge_response_reward (some false) tf = -(1 / 10) * tf ∧
    challenge_response_reward none tf = 0 ∧
    (retrieve_round_entry m seed none tf).2 = 0 ∧
    (retrieve_round_entry m seed (some ⟨d, h, v⟩) tf).2 =
      (if d && h && v then 1 * tf else -(1 / 10)) := by
  refine ⟨rfl, rfl, rfl, rfl, rfl, rfl, ?_⟩
  cases d <;> cases h <;> cases v <;> simp [retrieve_round_entry]

/-- C3. The claim (and the code's own comments, "Retrying with new uids")
say a further Store wave is dispatched to the freshly selected miners. In
fact `failed_uids` is reset to `[]` immediately after selecting the fresh
miners, so the `while len(failed_uids)` condition fails and exactly one wave
is ever dispatched, for every possible response outcome and miner selection. -/
theorem c3_store_retry_loop_dispatches_single_wave
    (respond : List Nat → List Bool) (fresh : Nat → List Nat) (uids : List Nat) :
    (store_encrypted_data_loop respond fresh uids).waves = 1 := by
  have hempty : ∀ fuel uids retries waves calls,
      storeLoopAux respond fresh fuel uids [] retries waves calls = ⟨waves, calls⟩ := by
    intro fuel uids retries waves calls
    cases fuel <;> simp [storeLoopAux]
  unfold store_encrypted_data_loop
  unfold storeLoopAux
  simp only [List.length_cons, List.length_nil, Nat.zero_add, hempty]
  split
  · omega
  · split <;> split <;> rfl

/-- C6 counterexample. For a blob of size 3 and `chunk_size = 5` the spec's
range is `[0, ceil(3/5)) = [0, 1)`, but the code draws from
`range(num_chunks)` with `num_chunks = 3` (the raw size), so the drawn index
can be `2`, which lies outside the claimed range; the two chunk counts differ. -/
theorem c6_counterexample_floor_not_ceiling :
    handle_challenge_num_chunks 3 5 = 3 ∧
    spec_num_chunks 3 5 = 1 ∧
    handle_challenge_num_chunks 3 5 ≠ spec_num_chunks 3 5 ∧
    handle_challenge_index 3 5 (fun n => n - 1) = 2 ∧
    ¬(handle_challenge_index 3 5 (fun n => n - 1) < spec_num_chunks 3 5) := by
  refine ⟨rfl, rfl, by decide, rfl, by decide⟩

/-- C6 amended. `challenge_index` is drawn from `[0, n)` where
`n = size // chunk_size` (floor) when `size > chunk_size` and `n = size`
otherwise — not from `[0, ceil(size/chunk_size))`. -/
theorem c6_challenge_index_range_amended (size chunk_size : Nat)
    (pick : Nat → Nat) (hpick : ∀ n, 0 < n → pick n < n)
    (hpos : 0 < handle_challenge_num_chunks size chunk_size) :
    handle_challenge_index size chunk_size pick <
      (if chunk_size < size then size / chunk_size else size) := by
  have := hpick _ hpos
  simpa [handle_challenge_index, handle_challenge_num_chunks] using this

/-- C6 witness: at `size = 10`, `chunk_size = 4` the drawn index is below
`10 / 4 = 2`. -/
theorem c6_witness :
    handle_challenge_index 10 4 (fun n => n - 1) <
      (if 4 < 10 then 10 / 4 else 10) :=
  c6_challenge_index_range_amended 10 4 (fun n => n - 1)
    (fun n hn => Nat.sub_lt hn Nat.one_pos) (by decide)

/-- C7 counterexample. Store a 3-byte ciphertext `[1, 2, 3]`: the metadata's
`size` field is `sys.getsizeof` of it, i.e. `36`, not the length `3`. -/
theorem c7_counterexample_size_not_length :
    (store_success_metadata [0] [1, 2, 3] []).size = 36 ∧
    (store_success_metadata [0] [1, 2, 3] []).size ≠ 3 := by
  exact ⟨rfl, by decide⟩

/-- C7 amended. The `size` written on a verified Store is
`sys.getsizeof(encrypted_data)` — the ciphertext length plus the 33-byte
CPython `bytes` object overhead — and therefore never equals the ciphertext
length itself. -/
theorem c7_metadata_size_amended (seed : HexStr) (data : Bytes)
    (payload : List Nat) :
    (store_success_metadata seed data payload).size = data.length + 33 ∧
    (store_success_metadata seed data payload).size ≠ data.length := by
  refine ⟨by simp [store_success_metadata, sys_getsizeof_bytes, Nat.add_comm], ?_⟩
  simp only [store_success_metadata, sys_getsizeof_bytes]
  omega

/-- C9. Every phase of `forward` runs in its own `try`/`except`, so whatever
each phase does — succeed or raise — all phases are attempted (the trace has
one entry per phase, in order) and the step itself only fails when the
validator's hotkey is not registered in the metagraph. -/
theorem c9_phase_errors_do_not_abort_step (registered : Bool)
    (phases : List (Except String Unit)) :
    run_step registered phases =
      (if registered then .ok (phases.map try_phase)
       else .error "Validator is not registered - hotkey not in metagraph") ∧
    (phases.map try_phase).length = phases.length := by
  constructor
  · cases registered <;> simp [run_step, forward_step, step_maintenance]
  · simp

/-- C10. `validate_merkle_proof` is not total: an entry whose `"left"` value
is not valid hex (here the digit value 16, i.e. a non-hex character) and
which has no `"right"` key makes the `except:` branch re-raise — the function
raises (returns `none`) instead of returning `False`, for every hash
function. -/
theorem c10_validate_merkle_proof_raises_on_bad_left (H : Bytes → Bytes) :
    validate_merkle_proof H [⟨some [16, 0], none⟩] (hexEncode [0]) (hexEncode [0])
      = none := by
  rfl

/-! ## Merkle consistency (C4) -/

theorem calculateNextLevel_length (H : Bytes → Bytes) :
    ∀ l : List Bytes, (calculateNextLevel H l).length = (l.length + 1) / 2
  | [] => by simp [calculateNextLevel]
  | [x] => by simp [calculateNextLevel]
  | x :: y :: rest => by
    have := calculateNextLevel_length H rest
    simp [calculateNextLevel, this]
    omega

theorem calculateNextLevel_getD_pair (H : Bytes → Bytes) :
    ∀ (l : List Bytes) (j : Nat), 2 * j + 1 < l.length →
      (calculateNextLevel H l).getD j [] =
        H (l.getD (2 * j) [] ++ l.getD (2 * j + 1) [])
  | [], j, h => by simp at h
  | [x], j, h => by simp at h
  | x :: y :: rest, 0, h => by simp [calculateNextLevel]
  | x :: y :: rest, j + 1, h => by
    have hrec := calculateNextLevel_getD_pair H rest j (by simp at h ⊢; omega)
    have e1 : 2 * (j + 1) = 2 * j + 1 + 1 := by ring
    have e2 : 2 * (j + 1) + 1 = 2 * j + 1 + 1 + 1 := by ring
    simp only [calculateNextLevel, List.getD_cons_succ, e1, e2, hrec]

theorem calculateNextLevel_getD_solo (H : Bytes → Bytes) :
    ∀ (l : List Bytes) (j : Nat), l.length = 2 * j + 1 →
      (calculateNextLevel H l).getD j [] = l.getD (2 * j) []
  | [], j, h => by simp at h
  | [x], j, h => by
    have : j = 0 := by simp at h; omega
    subst this
    simp [calculateNextLevel]
  | x :: y :: rest, j, h => by
    have hj : 1 ≤ j := by simp at h; omega
    obtain ⟨j', rfl⟩ : ∃ j', j = j' + 1 := ⟨j - 1, by omega⟩
    have hrec := calculateNextLevel_getD_solo H rest j' (by simp at h ⊢; omega)
    have e1 : 2 * (j' + 1) = 2 * j' + 1 + 1 := by ring
    simp only [calculateNextLevel, List.getD_cons_succ, e1, hrec]

theorem calculateNextLevel_wf (H : Bytes → Bytes)
    (HW : ∀ s, ∀ b ∈ H s, b < 256) :
    ∀ l : List Bytes, WfBytes l → WfBytes (calculateNextLevel H l)
  | [], _ => by simp [calculateNextLevel, WfBytes]
  | [solo], hw => by
    simpa [calculateNextLevel, WfBytes] using hw
  | x :: y :: rest, hw => by
    intro z hz
    simp only [calculateNextLevel, List.mem_cons] at hz
    rcases hz with rfl | hz
    · exact HW _
    · exact calculateNextLevel_wf H HW rest
        (fun a ha => hw a (by simp [ha])) z hz

theorem reduceRoot_wf (H : Bytes → Bytes) (HW : ∀ s, ∀ b ∈ H s, b < 256) :
    ∀ (fuel : Nat) (lvl : List Bytes), WfBytes lvl →
      WfBytes (reduceRoot H fuel lvl)
  | 0, lvl, hw => hw
  | fuel + 1, lvl, hw => by
    rw [reduceRoot]
    split
    · exact hw
    · exact reduceRoot_wf H HW fuel _ (calculateNextLevel_wf H HW lvl hw)

theorem makeLevelsAux_ne_nil (H : Bytes → Bytes) (fuel : Nat) (lvl : List Bytes) :
    makeLevelsAux H fuel lvl ≠ [] := by
  cases fuel with
  | zero => simp [makeLevelsAux]
  | succ fuel =>
    rw [makeLevelsAux]
    split <;> simp

theorem makeLevelsAux_reverse (H : Bytes → Bytes) :
    ∀ (fuel : Nat) (lvl : List Bytes),
      (makeLevelsAux H fuel lvl).reverse = revMakeAux H fuel lvl
  | 0, lvl => by simp [makeLevelsAux, revMakeAux]
  | fuel + 1, lvl => by
    rw [makeLevelsAux, revMakeAux]
    split
    · simp
    · simp [makeLevelsAux_reverse H fuel]

theorem makeLevelsAux_headD (H : Bytes → Bytes) :
    ∀ (fuel : Nat) (lvl : List Bytes),
      (makeLevelsAux H fuel lvl).getD 0 [] = reduceRoot H fuel lvl
  | 0, lvl => by simp [makeLevelsAux, reduceRoot]
  | fuel + 1, lvl => by
    rw [makeLevelsAux, reduceRoot]
    split
    · simp
    · rw [List.getD_append _ _ _ _ (by
        have := makeLevelsAux_ne_nil H fuel (calculateNextLevel H lvl)
        exact List.length_pos.mpr this)]
      exact makeLevelsAux_headD H fuel _

theorem revMakeAux_ne_nil (H : Bytes → Bytes) (fuel : Nat) (lvl : List Bytes) :
    revMakeAux H fuel lvl ≠ [] := by
  cases fuel with
  | zero => simp [revMakeAux]
  | succ fuel =>
    rw [revMakeAux]
    split <;> simp

theorem getD_mem_of_lt {l : List Bytes} {i : Nat} (h : i < l.length) :
    l.getD i [] ∈ l := by
  rw [List.getD_eq_getElem l [] h]
  exact List.getElem_mem h

theorem proofEntryAt_chain (H : Bytes → Bytes) (lvl : List Bytes) (index : Nat)
    (hidx : index < lvl.length) (hlen : 2 ≤ lvl.length) (hwf : WfBytes lvl) :
    List.foldlM (proofStep H) (lvl.getD index []) (proofEntryAt lvl index)
      = some ((calculateNextLevel H lvl).getD (index / 2) []) := by
  unfold proofEntryAt
  by_cases hskip : index = lvl.length - 1 ∧ lvl.length % 2 = 1
  · rw [if_pos hskip]
    have hsolo : lvl.length = 2 * (index / 2) + 1 := by omega
    have heq : 2 * (index / 2) = index := by omega
    rw [calculateNextLevel_getD_solo H lvl (index / 2) hsolo, heq]
    rfl
  · rw [if_neg hskip]
    by_cases hodd : index % 2 = 1
    · rw [if_pos hodd]
      have hsib : index - 1 < lvl.length := by omega
      have hwfs : ∀ b ∈ lvl.getD (index - 1) [], b < 256 :=
        hwf _ (getD_mem_of_lt hsib)
      have hpair := calculateNextLevel_getD_pair H lvl (index / 2) (by omega)
      have e1 : 2 * (index / 2) = index - 1 := by omega
      have e2 : 2 * (index / 2) + 1 = index := by omega
      have hd := hexDecode_hexEncode _ hwfs
      rw [hpair, e2, e1]
      simp only [List.foldlM_cons, List.foldlM_nil, proofStep, hd]
      simp
    · rw [if_neg hodd]
      have hnotlast : index + 1 < lvl.length := by omega
      have hwfs : ∀ b ∈ lvl.getD (index + 1) [], b < 256 :=
        hwf _ (getD_mem_of_lt hnotlast)
      have hpair := calculateNextLevel_getD_pair H lvl (index / 2) (by omega)
      have e1 : 2 * (index / 2) = index := by omega
      have hd := hexDecode_hexEncode _ hwfs
      rw [hpair, e1]
      simp only [List.foldlM_cons, List.foldlM_nil, proofStep, proofStepRight, hd]
      simp

theorem proofLoop_chain (H : Bytes → Bytes) (HW : ∀ s, ∀ b ∈ H s, b < 256) :
    ∀ (fuel : Nat) (lvl : List Bytes) (index : Nat),
      lvl.length ≤ fuel + 1 → index < lvl.length → WfBytes lvl →
      List.foldlM (proofStep H) (lvl.getD index [])
          (proofLoop (revMakeAux H fuel lvl) index)
        = some ((reduceRoot H fuel lvl).getD 0 []) := by
  intro fuel
  induction fuel with
  | zero =>
    intro lvl index hlen hidx _
    have h0 : index = 0 := by omega
    subst h0
    simp [revMakeAux, proofLoop, reduceRoot]
  | succ fuel ih =>
    intro lvl index hlen hidx hwf
    rw [revMakeAux, reduceRoot]
    by_cases hshort : lvl.length ≤ 1
    · rw [if_pos hshort, if_pos hshort]
      have h0 : index = 0 := by omega
      subst h0
      simp [proofLoop]
    · rw [if_neg hshort, if_neg hshort]
      have hlen2 : 2 ≤ lvl.length := by omega
      obtain ⟨m, ms, hms⟩ :=
        List.exists_cons_of_ne_nil (revMakeAux_ne_nil H fuel (calculateNextLevel H lvl))
      rw [hms, proofLoop, List.foldlM_append,
        proofEntryAt_chain H lvl index hidx hlen2 hwf]
      have hlen' : (calculateNextLevel H lvl).length ≤ fuel + 1 := by
        rw [calculateNextLevel_length]; omega
      have hidx' : index / 2 < (calculateNextLevel H lvl).length := by
        rw [calculateNextLevel_length]; omega
      have hwf' := calculateNextLevel_wf H HW lvl hwf
      have := ih (calculateNextLevel H lvl) (index / 2) hlen' hidx' hwf'
      rw [hms] at this
      simpa using this

theorem wf_getD {l : List Bytes} (hwf : WfBytes l) (i : Nat) :
    ∀ b ∈ l.getD i [], b < 256 := by
  by_cases h : i < l.length
  · exact hwf _ (getD_mem_of_lt h)
  · rw [List.getD_eq_default _ _ (by omega)]
    simp

/-- C4. Merkle proof consistency: for every tree built by `make_tree` from a
non-empty leaf list (over any hash function producing genuine bytes — in the
program, SHA3-256) and every in-range leaf index, `validate_merkle_proof`
accepts `get_proof` against `get_leaf` and `get_merkle_root`. Odd levels,
whose unpaired last node is carried up and skipped in the proof, are covered. -/
theorem c4_merkle_proof_roundtrip_valid (H : Bytes → Bytes)
    (HW : ∀ s, ∀ b ∈ H s, b < 256) (leaves : List Bytes)
    (lv0 : Option (List (List Bytes))) (rd0 : Bool) (i : Nat)
    (hne : leaves ≠ []) (hi : i < leaves.length) (hwf : WfBytes leaves) :
    ∃ (p : List ProofEntry) (r : HexStr),
      (MerkleTree.make_tree ⟨H, leaves, lv0, rd0⟩).get_proof i = some p ∧
      (MerkleTree.make_tree ⟨H, leaves, lv0, rd0⟩).get_merkle_root = some r ∧
      validate_merkle_proof H p
        ((MerkleTree.make_tree ⟨H, leaves, lv0, rd0⟩).get_leaf i) r = some true := by
  have hpos : 0 < leaves.length := List.length_pos.mpr hne
  have htree : MerkleTree.make_tree ⟨H, leaves, lv0, rd0⟩ =
      ⟨H, leaves, some (makeLevelsAux H leaves.length leaves), true⟩ := by
    simp [MerkleTree.make_tree, hpos]
  have hrootwf : ∀ b ∈ (reduceRoot H leaves.length leaves).getD 0 [], b < 256 :=
    wf_getD (reduceRoot_wf H HW leaves.length leaves hwf) 0
  have hchain := proofLoop_chain H HW leaves.length leaves i (by omega) hi hwf
  refine ⟨proofLoop (revMakeAux H leaves.length leaves) i,
    hexEncode ((reduceRoot H leaves.length leaves).getD 0 []), ?_, ?_, ?_⟩
  · rw [htree]
    simp only [MerkleTree.get_proof]
    rw [if_neg (by simp; omega), makeLevelsAux_reverse]
  · rw [htree]
    simp only [MerkleTree.get_merkle_root, if_true]
    rw [show ((makeLevelsAux H leaves.length leaves).getD 0 []).getD 0 [] =
        (reduceRoot H leaves.length leaves).getD 0 [] by
      rw [makeLevelsAux_headD]]
  · rw [htree]
    simp only [MerkleTree.get_leaf]
    unfold validate_merkle_proof
    rw [hexDecode_hexEncode _ hrootwf, hexDecode_hexEncode _ (wf_getD hwf i)]
    dsimp only
    by_cases hp : proofLoop (revMakeAux H leaves.length leaves) i = []
    · rw [if_pos hp]
      rw [hp] at hchain
      simp only [List.foldlM_nil] at hchain
      have h2 : leaves.getD i [] = (reduceRoot H leaves.length leaves).getD 0 [] := by
        simpa using hchain
      rw [h2]
      simp
    · rw [if_neg hp, hchain]
      simp

/-- C4 witness: a concrete three-leaf tree (odd level, carried node) at the
carried index 2. -/
theorem c4_witness :
    ∃ (p : List ProofEntry) (r : HexStr),
      (MerkleTree.make_tree ⟨constHash, [[1], [2], [3]], none, false⟩).get_proof 2
        = some p ∧
      (MerkleTree.make_tree ⟨constHash, [[1], [2], [3]], none, false⟩).get_merkle_root
        = some r ∧
      validate_merkle_proof constHash p
        ((MerkleTree.make_tree ⟨constHash, [[1], [2], [3]], none, false⟩).get_leaf 2) r
        = some true :=
  c4_merkle_proof_roundtrip_valid constHash
    (fun s b hb => by simp [constHash] at hb; omega)
    [[1], [2], [3]] none false 2 (by decide) (by decide) (by decide)

/-! ## Serialization round trip (C5) -/

theorem mapM_hexDecode_hexEncode (l : List Bytes) (h : WfBytes l) :
    (l.map hexEncode).mapM hexDecode? = some l := by
  induction l with
  | nil => rfl
  | cons x xs ih =>
    have hx := hexDecode_hexEncode x (h x (by simp))
    have hxs := ih (fun a ha => h a (by simp [ha]))
    rw [List.map_cons, List.mapM_cons, hx, hxs]
    rfl

theorem mapM_levels_hexDecode_hexEncode (ls : List (List Bytes))
    (h : ∀ lvl ∈ ls, WfBytes lvl) :
    (ls.map (fun lvl => lvl.map hexEncode)).mapM (fun lvl => lvl.mapM hexDecode?)
      = some ls := by
  induction ls with
  | nil => rfl
  | cons x xs ih =>
    have hx := mapM_hexDecode_hexEncode x (h x (by simp))
    have hxs := ih (fun a ha => h a (by simp [ha]))
    rw [List.map_cons, List.mapM_cons, hx, hxs]
    rfl

/-- C5. `deserialize ∘ serialize` restores every Merkle tree — ready or not,
with or without levels — up to its `leaves`, `levels`, and `is_ready` fields
(the deserialized tree's hash function is the constructor default, SHA3-256,
which the claim does not compare). -/
theorem c5_serialize_deserialize_roundtrip (t : MerkleTree)
    (hleaves : WfBytes t.leaves)
    (hlevels : ∀ lvl ∈ t.levels.getD [], WfBytes lvl) :
    ∃ t', MerkleTree.deserialize t.serialize = some t' ∧
      t'.leaves = t.leaves ∧ t'.levels = t.levels ∧ t'.is_ready = t.is_ready := by
  refine ⟨⟨sha3_256, t.leaves, t.levels, t.is_ready⟩, ?_, rfl, rfl, rfl⟩
  unfold MerkleTree.deserialize MerkleTree.serialize
  simp only [bind, Option.bind]
  rw [mapM_hexDecode_hexEncode _ hleaves]
  cases hl : t.levels with
  | none => simp
  | some lvls =>
    rw [hl] at hlevels
    simp only [Option.getD_some] at hlevels
    dsimp only [Option.map_some']
    rw [mapM_levels_hexDecode_hexEncode lvls hlevels]
    rfl

/-- C5 witness: a concrete ready tree with one leaf and one level. -/
theorem c5_witness :
    ∃ t', MerkleTree.deserialize
        (MerkleTree.serialize ⟨sha3_256, [[1]], some [[[1]]], true⟩) = some t' ∧
      t'.leaves = [[1]] ∧ t'.levels = some [[[1]]] ∧ t'.is_ready = true :=
  c5_serialize_deserialize_roundtrip ⟨sha3_256, [[1]], some [[[1]]], true⟩
    (by decide) (by decide)

/-! ## Single-leaf update vs. rebuild (C8) -/

theorem calculateNextLevel_set_even (H : Bytes → Bytes) :
    ∀ (l : List Bytes) (i : Nat) (v : Bytes), l.length % 2 = 0 → i < l.length →
      calculateNextLevel H (l.set i v) =
        (calculateNextLevel H l).set (i / 2)
          (H ((l.set i v).getD (2 * (i / 2)) [] ++ (l.set i v).getD (2 * (i / 2) + 1) []))
  | [], i, v, _, hi => by simp at hi
  | [x], i, v, hev, _ => by simp at hev
  | x :: y :: rest, 0, v, hev, hi => by
    simp [calculateNextLevel]
  | x :: y :: rest, 1, v, hev, hi => by
    simp [calculateNextLevel]
  | x :: y :: rest, i + 2, v, hev, hi => by
    have hev' : rest.length % 2 = 0 := by simp at hev ⊢; omega
    have hi' : i < rest.length := by simp at hi; omega
    have hrec := calculateNextLevel_set_even H rest i v hev' hi'
    have e0 : (i + 2) / 2 = i / 2 + 1 := by omega
    have e1 : 2 * (i / 2 + 1) = 2 * (i / 2) + 1 + 1 := by omega
    have e2 : 2 * (i / 2 + 1) + 1 = 2 * (i / 2) + 1 + 1 + 1 := by omega
    simp only [e0, e1, e2, List.set_cons_succ, calculateNextLevel,
      List.getD_cons_succ, hrec]

theorem revMakeAux_short (H : Bytes → Bytes) (f : Nat) (lvl : List Bytes)
    (h : lvl.length ≤ 1) : revMakeAux H f lvl = [lvl] := by
  cases f with
  | zero => rfl
  | succ f => rw [revMakeAux, if_pos h]

theorem revMakeAux_cons (H : Bytes → Bytes) (f : Nat) (lvl : List Bytes) :
    ∃ tl, revMakeAux H f lvl = lvl :: tl := by
  cases f with
  | zero => exact ⟨[], rfl⟩
  | succ f =>
    rw [revMakeAux]
    split
    · exact ⟨[], rfl⟩
    · exact ⟨_, rfl⟩

theorem updChainAux_pow2 (H : Bytes → Bytes) :
    ∀ (k f : Nat) (lvl : List Bytes) (i : Nat) (v : Bytes),
      lvl.length = 2 ^ k → i < lvl.length →
      updChainAux H (revMakeAux H f lvl).tail (lvl.set i v) i
        = revMakeAux H f (lvl.set i v) := by
  intro k
  induction k with
  | zero =>
    intro f lvl i v hlen hi
    simp only [pow_zero] at hlen
    rw [revMakeAux_short H f lvl (by omega),
      revMakeAux_short H f _ (by simp; omega)]
    rfl
  | succ k ih =>
    intro f lvl i v hlen hi
    have hpow : (2 : Nat) ^ (k + 1) = 2 * 2 ^ k := by ring
    have hpos : 0 < (2 : Nat) ^ k := Nat.pos_pow_of_pos k (by norm_num)
    have hlen2 : 2 ≤ lvl.length := by omega
    cases f with
    | zero =>
      rw [revMakeAux, revMakeAux]
      rfl
    | succ f =>
      have hnotshort : ¬lvl.length ≤ 1 := by omega
      have hnotshort' : ¬(lvl.set i v).length ≤ 1 := by simp; omega
      rw [revMakeAux, if_neg hnotshort, List.tail_cons]
      rw [revMakeAux, if_neg hnotshort']
      obtain ⟨tl, htl⟩ := revMakeAux_cons H f (calculateNextLevel H lvl)
      have htail : (revMakeAux H f (calculateNextLevel H lvl)).tail = tl := by
        rw [htl, List.tail_cons]
      rw [htl]
      rw [updChainAux]
      have heven : lvl.length % 2 = 0 := by omega
      have hin : 2 * (i / 2) + 1 < (lvl.set i v).length := by simp; omega
      rw [if_pos hin]
      have hnlen : (calculateNextLevel H lvl).length = 2 ^ k := by
        rw [calculateNextLevel_length]; omega
      have hni : i / 2 < (calculateNextLevel H lvl).length := by
        rw [hnlen]; omega
      have hA := calculateNextLevel_set_even H lvl i v heven hi
      have IH := ih f (calculateNextLevel H lvl) (i / 2)
        (H ((lvl.set i v).getD (2 * (i / 2)) [] ++ (lvl.set i v).getD (2 * (i / 2) + 1) []))
        hnlen hni
      rw [htail] at IH
      rw [IH, ← hA]

/-- C8 amended. `update_leaf` agrees with a fresh `make_tree` rebuild (same
leaves, same levels, and hence same root) whenever the leaf count is a power
of two, i.e. whenever no level carries an unpaired solo node. On trees with a
carried node the two can differ (see the counterexample), because the upward
recomputation hashes the solo node with an empty sibling instead of carrying
it. -/
theorem c8_update_leaf_even_tree_amended (H : Bytes → Bytes) (leaves : List Bytes)
    (lv0 : Option (List (List Bytes))) (rd0 : Bool) (k i : Nat) (v : Bytes)
    (hlen : leaves.length = 2 ^ k) (hi : i < leaves.length)
    (hv : ∀ b ∈ v, b < 256) :
    (MerkleTree.make_tree ⟨H, leaves, lv0, rd0⟩).update_leaf i (hexEncode v)
      = some (MerkleTree.make_tree ⟨H, leaves.set i v, lv0, rd0⟩) := by
  have hpos : 0 < leaves.length := by
    rw [hlen]; exact Nat.pos_pow_of_pos k (by norm_num)
  have htree : MerkleTree.make_tree ⟨H, leaves, lv0, rd0⟩ =
      ⟨H, leaves, some (makeLevelsAux H leaves.length leaves), true⟩ := by
    simp [MerkleTree.make_tree, hpos]
  have hpos' : 0 < (leaves.set i v).length := by simp; omega
  have htree' : MerkleTree.make_tree ⟨H, leaves.set i v, lv0, rd0⟩ =
      ⟨H, leaves.set i v,
        some (makeLevelsAux H (leaves.set i v).length (leaves.set i v)), true⟩ := by
    unfold MerkleTree.make_tree
    dsimp only
    rw [if_pos hpos']
  rw [htree, htree']
  unfold MerkleTree.update_leaf
  rw [if_neg (by simp)]
  rw [hexDecode_hexEncode v hv]
  obtain ⟨tl, htl⟩ := revMakeAux_cons H leaves.length leaves
  have hrev : (makeLevelsAux H leaves.length leaves).reverse = leaves :: tl := by
    rw [makeLevelsAux_reverse, htl]
  have htail : (revMakeAux H leaves.length leaves).tail = tl := by
    rw [htl, List.tail_cons]
  simp only [hrev]
  have hupd : updChain H (leaves.set i v :: tl) i
      = revMakeAux H leaves.length (leaves.set i v) := by
    rw [updChain, ← htail, updChainAux_pow2 H k leaves.length leaves i v hlen hi]
  rw [hupd, ← makeLevelsAux_reverse, List.reverse_reverse, List.length_set]

/-- C8 witness: on a two-leaf tree (no carried node) the update equals the
rebuild. -/
theorem c8_witness :
    (MerkleTree.make_tree ⟨constHash, [[1], [2]], none, false⟩).update_leaf 0
        (hexEncode [3])
      = some (MerkleTree.make_tree ⟨constHash, [[1], [2]].set 0 [3], none, false⟩) :=
  c8_update_leaf_even_tree_amended constHash [[1], [2]] none false 1 0 [3]
    (by decide) (by decide) (by decide)

set_option maxRecDepth 100000 in
/-- C8 counterexample. The claim fails on a genuine program tree (SHA3-256)
with three leaves `11 22 33`: updating leaf 2 to `44` yields a different root
than rebuilding from leaves `11 22 44`, because `update_leaf` replaces the
carried solo node by `sha3_256(44 concat empty)` where `make_tree` carries
`44` unchanged. -/
theorem c8_counterexample_update_leaf_odd_tree :
    ((MerkleTree.make_tree ⟨sha3_256, [[17], [34], [51]], none, false⟩).update_leaf 2
        (hexEncode [68])).map MerkleTree.get_merkle_root
      ≠ some (MerkleTree.make_tree
          ⟨sha3_256, [[17], [34], [68]], none, false⟩).get_merkle_root := by
  decide
